import Mathlib

/-!
Shallow embedding of `src/frontend/src/lib/calculations.ts` from the
trip-splitter repository, together with theorems about the per-person
breakdown computation.

Modelling choices:
* JavaScript `number` fields are embedded as `ℚ`.  All inputs handled by the
  theorems are integer cent amounts and integer share weights, for which
  JavaScript double arithmetic computes the exact products and the correctly
  rounded quotients; the rational model keeps quotients exact, which agrees
  with the doubles on every concrete scenario considered here and is the
  intended reading of the arithmetic in the source.
* The two JavaScript `Map`s (`breakdown` and `participantItemTotals`) are
  embedded as insertion-ordered association lists: `Map.set` on an absent key
  appends at the end, on a present key overwrites in place, exactly as
  JavaScript `Map` preserves insertion order.
* `Array.prototype.sort` with comparator `(a, b) => b.total - a.total` is a
  stable sort; it is embedded as a stable insertion sort descending on
  `total`, which produces the same list for any consistent comparator.
* `receipt.tip_cents || 0` maps `null` to `0` (and leaves every numeric tip
  unchanged, since `0 || 0 = 0`); `tip_cents` is embedded as `Option ℚ` with
  `Option.getD 0`.
-/

namespace TripSplitter

/-- `Assignment` from calculations.ts: links a line item to a participant
with a `shares` weight. -/
structure Assignment where
  participant_id : String
  participant_name : String
  shares : ℚ
  deriving DecidableEq, Repr

/-- `LineItem` from calculations.ts. -/
structure LineItem where
  unit_price_cents : ℚ
  quantity : ℚ
  assignments : List Assignment
  deriving DecidableEq, Repr

/-- `TaxLine` from calculations.ts. -/
structure TaxLine where
  amount_cents : ℚ
  deriving DecidableEq, Repr

/-- `ReceiptData` from calculations.ts; `tip_cents : number | null` becomes
`Option ℚ`. -/
structure ReceiptData where
  line_items : List LineItem
  tax_lines : List TaxLine
  tip_cents : Option ℚ
  deriving DecidableEq, Repr

/-- `PerPersonBreakdown` from calculations.ts. -/
structure PerPersonBreakdown where
  participantId : String
  participantName : String
  itemsTotal : ℚ
  taxShare : ℚ
  tipShare : ℚ
  total : ℚ
  deriving DecidableEq, Repr

/-- `itemTotal = item.unit_price_cents * item.quantity`. -/
def itemTotalOf (item : LineItem) : ℚ :=
  item.unit_price_cents * item.quantity

/-- `assignments.reduce((sum, a) => sum + a.shares, 0)` over a list of
assignments. -/
def totalSharesList (as : List Assignment) : ℚ :=
  as.foldl (fun sum a => sum + a.shares) 0

/-- `const totalShares = item.assignments.reduce((sum, a) => sum + a.shares, 0)`. -/
def totalSharesOf (item : LineItem) : ℚ :=
  totalSharesList item.assignments

/-- Lookup in the `participantItemTotals` map
(`participantItemTotals.get(id)`). -/
def lookupTotal (l : List (String × ℚ)) (id : String) : Option ℚ :=
  (l.find? (fun kv => kv.1 = id)).map (fun kv => kv.2)

/-- `participantItemTotals.set(id, v)`: overwrite in place when the key is
present, append otherwise (JavaScript `Map` insertion order). -/
def setTotal (l : List (String × ℚ)) (id : String) (v : ℚ) : List (String × ℚ) :=
  match l with
  | [] => [(id, v)]
  | kv :: rest => if kv.1 = id then (id, v) :: rest else kv :: setTotal rest id v

/-- `breakdown.has(id)` for the insertion-ordered breakdown map. -/
def hasEntry (l : List PerPersonBreakdown) (id : String) : Bool :=
  l.any (fun e => e.participantId = id)

/-- The `if (!breakdown.has(...)) breakdown.set(...)` initialisation step:
append a fresh all-zero entry when the participant is absent. -/
def initEntry (l : List PerPersonBreakdown) (a : Assignment) : List PerPersonBreakdown :=
  if hasEntry l a.participant_id then l
  else l ++ [⟨a.participant_id, a.participant_name, 0, 0, 0, 0⟩]

/-- `const entry = breakdown.get(id)!; entry.itemsTotal += participantShare`. -/
def addItemsShare (l : List PerPersonBreakdown) (id : String) (share : ℚ) :
    List PerPersonBreakdown :=
  l.map (fun e =>
    if e.participantId = id then { e with itemsTotal := e.itemsTotal + share } else e)

/-- Accumulator state of the first loop of `calculatePerPersonBreakdown`:
the running `totalAssignedAmount`, the `participantItemTotals` map and the
`breakdown` map. -/
structure CalcState where
  totalAssignedAmount : ℚ
  participantItemTotals : List (String × ℚ)
  breakdown : List PerPersonBreakdown
  deriving Repr

/-- Body of `item.assignments.forEach((assignment) => ...)`. -/
def processAssignment (itemTotal totalShares : ℚ) (st : CalcState)
    (a : Assignment) : CalcState :=
  let participantShare := itemTotal * a.shares / totalShares
  let current := (lookupTotal st.participantItemTotals a.participant_id).getD 0
  { totalAssignedAmount := st.totalAssignedAmount + participantShare
    participantItemTotals :=
      setTotal st.participantItemTotals a.participant_id (current + participantShare)
    breakdown := addItemsShare (initEntry st.breakdown a) a.participant_id participantShare }

/-- Body of `receipt.line_items.forEach((item) => ...)`: items whose total
shares are not positive are skipped entirely. -/
def processItem (st : CalcState) (item : LineItem) : CalcState :=
  if 0 < totalSharesOf item then
    item.assignments.foldl (processAssignment (itemTotalOf item) (totalSharesOf item)) st
  else st

/-- State after the first loop of `calculatePerPersonBreakdown`. -/
def buildState (receipt : ReceiptData) : CalcState :=
  receipt.line_items.foldl processItem ⟨0, [], []⟩

/-- `const taxTotal = receipt.tax_lines.reduce((sum, tax) => sum + tax.amount_cents, 0)`. -/
def taxTotalOf (receipt : ReceiptData) : ℚ :=
  receipt.tax_lines.foldl (fun sum tax => sum + tax.amount_cents) 0

/-- `const tipTotal = receipt.tip_cents || 0`. -/
def tipTotalOf (receipt : ReceiptData) : ℚ :=
  receipt.tip_cents.getD 0

/-- The `totalAssignedAmount` denominator used to prorate tax and tip. -/
def totalAssignedAmountOf (receipt : ReceiptData) : ℚ :=
  (buildState receipt).totalAssignedAmount

/-- Body of the second loop `breakdown.forEach((entry, participantId) => ...)`:
prorate tax and tip (only when `totalAssignedAmount > 0`) and set `total`. -/
def applyTaxTip (taxTotal tipTotal totalAssignedAmount : ℚ)
    (totals : List (String × ℚ)) (e : PerPersonBreakdown) : PerPersonBreakdown :=
  let itemsShare := (lookupTotal totals e.participantId).getD 0
  let e1 :=
    if 0 < totalAssignedAmount then
      { e with
        taxShare := taxTotal * itemsShare / totalAssignedAmount
        tipShare := tipTotal * itemsShare / totalAssignedAmount }
    else e
  { e1 with total := e1.itemsTotal + e1.taxShare + e1.tipShare }

/-- Insert an entry into a list already sorted descending by `total`,
after every entry with a greater-or-equal total (stable insertion). -/
def insertDesc (e : PerPersonBreakdown) : List PerPersonBreakdown → List PerPersonBreakdown
  | [] => [e]
  | b :: bs => if b.total ≤ e.total then e :: b :: bs else b :: insertDesc e bs

/-- Stable sort descending by `total`, the embedding of
`.sort((a, b) => b.total - a.total)`. -/
def sortByTotalDesc : List PerPersonBreakdown → List PerPersonBreakdown
  | [] => []
  | e :: es => insertDesc e (sortByTotalDesc es)

/-- `calculatePerPersonBreakdown` from calculations.ts. -/
def calculatePerPersonBreakdown (receipt : ReceiptData) : List PerPersonBreakdown :=
  let st := buildState receipt
  let taxTotal := taxTotalOf receipt
  let tipTotal := tipTotalOf receipt
  let final := st.breakdown.map
    (applyTaxTip taxTotal tipTotal st.totalAssignedAmount st.participantItemTotals)
  sortByTotalDesc final

/-- Specification-style share of one participant in one line item: the sum of
`itemTotal × shares / totalShares` over that participant's assignments. -/
def itemShareFor (item : LineItem) (pid : String) : ℚ :=
  ((item.assignments.filter (fun a => a.participant_id = pid)).map
    (fun a => itemTotalOf item * a.shares / totalSharesOf item)).sum

/-- Specification-style items total of one participant over a whole receipt:
only line items with positive total shares contribute. -/
def specItemsTotal (receipt : ReceiptData) (pid : String) : ℚ :=
  ((receipt.line_items.filter (fun it => 0 < totalSharesOf it)).map
    (fun it => itemShareFor it pid)).sum

/-- The total amount a single line item distributes over all of its
assignments. -/
def itemAssignedSum (item : LineItem) : ℚ :=
  (item.assignments.map (fun a => itemTotalOf item * a.shares / totalSharesOf item)).sum

/-- Specification-style value of the `totalAssignedAmount` denominator. -/
def specTotalAssigned (receipt : ReceiptData) : ℚ :=
  ((receipt.line_items.filter (fun it => 0 < totalSharesOf it)).map itemAssignedSum).sum

/-- The participant ids in the order they are first encountered while
iterating a list of assignments, starting from an already-seen list. -/
def encounterFold (acc : List String) (as : List Assignment) : List String :=
  as.foldl (fun acc a => if a.participant_id ∈ acc then acc else acc ++ [a.participant_id]) acc

/-- The participant ids of a receipt in first-encounter order: iterate the
line items (skipping those without positive total shares), then their
assignments. -/
def firstEncounterIds (receipt : ReceiptData) : List String :=
  receipt.line_items.foldl
    (fun acc item =>
      if 0 < totalSharesOf item then encounterFold acc item.assignments else acc) []

/-- Loop invariant of the first loop of `calculatePerPersonBreakdown`,
relating the accumulator state to an abstract per-participant items-total
function `f` and the insertion-ordered participant id list `ids`. -/
structure Inv (st : CalcState) (f : String → ℚ) (ids : List String) : Prop where
  ids_eq : st.breakdown.map (fun e => e.participantId) = ids
  nodup : ids.Nodup
  entries : ∀ e ∈ st.breakdown,
    e.taxShare = 0 ∧ e.tipShare = 0 ∧ e.total = 0 ∧ e.itemsTotal = f e.participantId
  totals : ∀ pid, (lookupTotal st.participantItemTotals pid).getD 0 = f pid
  unseen : ∀ pid, pid ∉ ids → f pid = 0
  sum_eq : (st.breakdown.map (fun e => e.itemsTotal)).sum = st.totalAssignedAmount

/-- The pre-sort list of the second loop. -/
def proratedList (receipt : ReceiptData) : List PerPersonBreakdown :=
  (buildState receipt).breakdown.map
    (applyTaxTip (taxTotalOf receipt) (tipTotalOf receipt)
      (buildState receipt).totalAssignedAmount (buildState receipt).participantItemTotals)

/-- A rational number of cents is a whole number of cents when its
denominator is 1. -/
def isWholeCents (q : ℚ) : Prop := q.den = 1

/-- Multiply every assignment's shares on one line item by the same factor. -/
def scaleShares (k : ℚ) (item : LineItem) : LineItem :=
  { item with assignments := item.assignments.map (fun a => { a with shares := k * a.shares }) }

/-- One item of 1000 cents split into three equal shares: each participant is
credited 1000/3 cents, which is not a whole number of cents. -/
def rxThirds : ReceiptData :=
  ⟨[⟨1000, 1, [⟨"a", "Ann", 1⟩, ⟨"b", "Ben", 1⟩, ⟨"c", "Cal", 1⟩]⟩], [], none⟩

/-- Concrete scenario A of the spec: one 3000-cent item, Alice 2 shares and
Bob 1 share, no tax or tip. -/
def rxScenarioA : ReceiptData :=
  ⟨[⟨3000, 1, [⟨"a", "Alice", 2⟩, ⟨"b", "Bob", 1⟩]⟩], [], none⟩

/-- Concrete scenario B of the spec: a 2000-cent item assigned only to Alice,
a 1000-cent item assigned only to Bob, one unscoped 300-cent tax line, no tip. -/
def rxScenarioB : ReceiptData :=
  ⟨[⟨2000, 1, [⟨"a", "Alice", 1⟩]⟩, ⟨1000, 1, [⟨"b", "Bob", 1⟩]⟩], [⟨300⟩], none⟩

/-- A line item whose single assignment carries zero shares. -/
def itemAllZeroShares : LineItem := ⟨1000, 1, [⟨"a", "Alice", 0⟩]⟩

/-- A receipt consisting only of a zero-total-shares item, with tax and tip. -/
def rxAllZeroShares : ReceiptData := ⟨[itemAllZeroShares], [⟨100⟩], some 50⟩

/-- A 1000-cent item where Alice holds 1 share and Bob holds 0 shares. -/
def rxZeroShareMixed : ReceiptData :=
  ⟨[⟨1000, 1, [⟨"a", "Alice", 1⟩, ⟨"b", "Bob", 0⟩]⟩], [], none⟩

/-- Two fully assigned items, for the conservation witness. -/
def rxTwoItems : ReceiptData :=
  ⟨[⟨1000, 1, [⟨"a", "Alice", 1⟩]⟩, ⟨500, 3, [⟨"a", "Alice", 1⟩, ⟨"b", "Bob", 2⟩]⟩],
    [⟨100⟩], some 200⟩

/-- A 3000-cent item with a 2:1 split, for the scale-invariance witness. -/
def itemTwoToOne : LineItem := ⟨3000, 1, [⟨"a", "Alice", 2⟩, ⟨"b", "Bob", 1⟩]⟩

/-- A receipt with a malformed assignment carrying negative shares. -/
def rxNegativeShares : ReceiptData :=
  ⟨[⟨1000, 1, [⟨"a", "Alice", 2⟩, ⟨"b", "Bob", -1⟩]⟩], [], none⟩

/-- A small receipt used by the determinism witness. -/
def rxDet1 : ReceiptData :=
  ⟨[⟨1200, 2, [⟨"a", "Alice", 1⟩, ⟨"b", "Bob", 3⟩]⟩], [⟨70⟩], some 130⟩

/-- A second, field-for-field identical copy of `rxDet1`. -/
def rxDet2 : ReceiptData :=
  ⟨[⟨1200, 2, [⟨"a", "Alice", 1⟩, ⟨"b", "Bob", 3⟩]⟩], [⟨70⟩], some 130⟩

/-- A zero-price item with positive shares: the breakdown is non-empty but
`totalAssignedAmount` is zero even though tax and tip are present. -/
def rxZeroPrice : ReceiptData := ⟨[⟨0, 2, [⟨"a", "Alice", 1⟩]⟩], [⟨300⟩], some 100⟩

theorem lookupTotal_setTotal_self (l : List (String × ℚ)) (id : String) (v : ℚ) :
    lookupTotal (setTotal l id v) id = some v := by
  induction l with
  | nil => simp [setTotal, lookupTotal]
  | cons kv rest ih =>
    by_cases h : kv.1 = id
    · simp [setTotal, h, lookupTotal]
    · simp [setTotal, h, lookupTotal] at ih ⊢
      simpa [List.find?, h] using ih

theorem lookupTotal_setTotal_ne (l : List (String × ℚ)) (id id' : String) (v : ℚ)
    (h : id' ≠ id) : lookupTotal (setTotal l id v) id' = lookupTotal l id' := by
  induction l with
  | nil => simp [setTotal, lookupTotal, List.find?, (Ne.symm h)]
  | cons kv rest ih =>
    by_cases hk : kv.1 = id
    · simp [setTotal, hk, lookupTotal, List.find?, (Ne.symm h)]
    · by_cases hk' : kv.1 = id'
      · simp only [setTotal, if_neg hk]
        simp [lookupTotal, List.find?, hk']
      · simp only [lookupTotal, List.find?] at ih ⊢
        simp only [setTotal, if_neg hk]
        simp [List.find?, hk', ih]

theorem hasEntry_iff (l : List PerPersonBreakdown) (id : String) :
    hasEntry l id = true ↔ id ∈ l.map (fun e => e.participantId) := by
  constructor
  · intro hh
    rcases List.any_eq_true.1 hh with ⟨e, he, hid⟩
    exact List.mem_map.2 ⟨e, he, (of_decide_eq_true hid)⟩
  · intro hh
    rcases List.mem_map.1 hh with ⟨e, he, hid⟩
    exact List.any_eq_true.2 ⟨e, he, decide_eq_true hid⟩

theorem initEntry_ids (l : List PerPersonBreakdown) (a : Assignment) :
    (initEntry l a).map (fun e => e.participantId) =
      if a.participant_id ∈ l.map (fun e => e.participantId)
      then l.map (fun e => e.participantId)
      else l.map (fun e => e.participantId) ++ [a.participant_id] := by
  by_cases h : a.participant_id ∈ l.map (fun e => e.participantId)
  · simp [initEntry, (hasEntry_iff l a.participant_id).2 h, h]
  · have : ¬ hasEntry l a.participant_id = true := fun hh => h ((hasEntry_iff l a.participant_id).1 hh)
    simp [initEntry, this, h]

theorem addItemsShare_ids (l : List PerPersonBreakdown) (id : String) (s : ℚ) :
    (addItemsShare l id s).map (fun e => e.participantId) =
      l.map (fun e => e.participantId) := by
  induction l with
  | nil => rfl
  | cons e rest ih =>
    by_cases h : e.participantId = id <;> simp [addItemsShare, h] at ih ⊢ <;> exact ih

theorem initEntry_sum (l : List PerPersonBreakdown) (a : Assignment) :
    ((initEntry l a).map (fun e => e.itemsTotal)).sum =
      (l.map (fun e => e.itemsTotal)).sum := by
  by_cases h : hasEntry l a.participant_id <;> simp [initEntry, h]

theorem addItemsShare_of_not_mem (l : List PerPersonBreakdown) (id : String) (s : ℚ)
    (h : id ∉ l.map (fun e => e.participantId)) :
    addItemsShare l id s = l := by
  induction l with
  | nil => rfl
  | cons e rest ih =>
    simp only [List.map_cons, List.mem_cons, not_or] at h
    simp only [addItemsShare, List.map_cons]
    rw [if_neg (fun hc => h.1 hc.symm)]
    have := ih h.2
    simp only [addItemsShare] at this
    rw [this]

theorem addItemsShare_sum (l : List PerPersonBreakdown) (id : String) (s : ℚ)
    (hnd : (l.map (fun e => e.participantId)).Nodup)
    (hmem : id ∈ l.map (fun e => e.participantId)) :
    ((addItemsShare l id s).map (fun e => e.itemsTotal)).sum =
      (l.map (fun e => e.itemsTotal)).sum + s := by
  induction l with
  | nil => simp at hmem
  | cons e rest ih =>
    simp only [List.map_cons, List.nodup_cons] at hnd
    by_cases he : e.participantId = id
    · have hrest : id ∉ rest.map (fun e => e.participantId) := he ▸ hnd.1
      simp only [addItemsShare, List.map_cons, if_pos he]
      have hr := addItemsShare_of_not_mem rest id s hrest
      simp only [addItemsShare] at hr
      rw [hr]
      simp only [List.sum_cons]
      ring
    · have hm' : id ∈ rest.map (fun e => e.participantId) := by
        rw [List.map_cons] at hmem
        rcases List.mem_cons.1 hmem with h1 | h1
        · exact absurd h1.symm he
        · exact h1
      have := ih hnd.2 hm'
      simp only [addItemsShare, List.map_cons, if_neg he, List.sum_cons] at this ⊢
      rw [this]
      ring

theorem Inv.congr_f {st : CalcState} {f g : String → ℚ} {ids : List String}
    (h : Inv st f ids) (hfg : ∀ pid, f pid = g pid) : Inv st g ids where
  ids_eq := h.ids_eq
  nodup := h.nodup
  entries := fun e he => by
    obtain ⟨h1, h2, h3, h4⟩ := h.entries e he
    exact ⟨h1, h2, h3, h4.trans (hfg _)⟩
  totals := fun pid => (h.totals pid).trans (hfg pid)
  unseen := fun pid hp => (hfg pid).symm.trans (h.unseen pid hp)
  sum_eq := h.sum_eq

theorem processAssignment_inv {st : CalcState} {f : String → ℚ} {ids : List String}
    (h : Inv st f ids) (itemTotal totalShares : ℚ) (a : Assignment) :
    Inv (processAssignment itemTotal totalShares st a)
      (fun pid => if pid = a.participant_id
        then f pid + itemTotal * a.shares / totalShares else f pid)
      (if a.participant_id ∈ ids then ids else ids ++ [a.participant_id]) := by
  set s := itemTotal * a.shares / totalShares with hs
  have hcur : (lookupTotal st.participantItemTotals a.participant_id).getD 0
      = f a.participant_id := h.totals a.participant_id
  constructor
  · -- ids
    show (addItemsShare (initEntry st.breakdown a) a.participant_id s).map _ = _
    rw [addItemsShare_ids, initEntry_ids, h.ids_eq]
  · -- nodup
    by_cases hmem : a.participant_id ∈ ids
    · simpa [hmem] using h.nodup
    · simp only [if_neg hmem]
      refine List.Nodup.append h.nodup (List.nodup_singleton _) ?_
      intro x hx hxa
      rw [List.mem_singleton] at hxa
      exact hmem (hxa ▸ hx)
  · -- entries
    intro e' he'
    have he'' : e' ∈ addItemsShare (initEntry st.breakdown a) a.participant_id s := he'
    rcases List.mem_map.1 he'' with ⟨e, he, rfl⟩
    have hent : e.taxShare = 0 ∧ e.tipShare = 0 ∧ e.total = 0 ∧
        e.itemsTotal = f e.participantId := by
      by_cases hh : hasEntry st.breakdown a.participant_id
      · exact h.entries e (by simpa [initEntry, hh] using he)
      · rcases (by simpa [initEntry, hh] using he : e ∈ st.breakdown ∨
            e = ⟨a.participant_id, a.participant_name, 0, 0, 0, 0⟩) with h1 | h1
        · exact h.entries e h1
        · subst h1
          refine ⟨rfl, rfl, rfl, ?_⟩
          show (0 : ℚ) = f a.participant_id
          have : a.participant_id ∉ ids := by
            rw [← h.ids_eq]
            exact fun hc => hh ((hasEntry_iff _ _).2 hc)
          exact (h.unseen _ this).symm
    by_cases hpe : e.participantId = a.participant_id
    · have hgoal : (if e.participantId = a.participant_id
          then ({ e with itemsTotal := e.itemsTotal + s } : PerPersonBreakdown) else e)
          = { e with itemsTotal := e.itemsTotal + s } := if_pos hpe
      rw [hgoal]
      refine ⟨hent.1, hent.2.1, hent.2.2.1, ?_⟩
      show e.itemsTotal + s =
        if e.participantId = a.participant_id then f e.participantId + s else f e.participantId
      rw [if_pos hpe, hent.2.2.2]
    · have hgoal : (if e.participantId = a.participant_id
          then ({ e with itemsTotal := e.itemsTotal + s } : PerPersonBreakdown) else e)
          = e := if_neg hpe
      rw [hgoal]
      refine ⟨hent.1, hent.2.1, hent.2.2.1, ?_⟩
      show e.itemsTotal =
        if e.participantId = a.participant_id then f e.participantId + s else f e.participantId
      rw [if_neg hpe, hent.2.2.2]
  · -- totals
    intro pid
    have hEq : (processAssignment itemTotal totalShares st a).participantItemTotals
        = setTotal st.participantItemTotals a.participant_id
            ((lookupTotal st.participantItemTotals a.participant_id).getD 0 + s) := rfl
    by_cases hpid : pid = a.participant_id
    · subst hpid
      rw [hEq, lookupTotal_setTotal_self]
      simp [hcur]
    · rw [hEq, lookupTotal_setTotal_ne _ _ _ _ hpid, if_neg hpid]
      exact h.totals pid
  · -- unseen
    intro pid hp
    by_cases hpid : pid = a.participant_id
    · subst hpid
      exfalso
      apply hp
      by_cases hmem : a.participant_id ∈ ids <;> simp [hmem]
    · rw [if_neg hpid]
      refine h.unseen pid fun hc => hp ?_
      by_cases hmem : a.participant_id ∈ ids <;> simp [hmem, hc]
  · -- sum
    show ((addItemsShare (initEntry st.breakdown a) a.participant_id s).map _).sum = _
    have hnd : ((initEntry st.breakdown a).map (fun e => e.participantId)).Nodup := by
      rw [initEntry_ids, h.ids_eq]
      by_cases hmem : a.participant_id ∈ ids
      · simpa [hmem] using h.nodup
      · simp only [if_neg hmem]
        refine List.Nodup.append h.nodup (List.nodup_singleton _) ?_
        intro x hx hxa
        rw [List.mem_singleton] at hxa
        exact hmem (hxa ▸ hx)
    have hmem' : a.participant_id ∈ (initEntry st.breakdown a).map (fun e => e.participantId) := by
      rw [initEntry_ids, h.ids_eq]
      by_cases hmem : a.participant_id ∈ ids <;> simp [hmem]
    rw [addItemsShare_sum _ _ _ hnd hmem', initEntry_sum, h.sum_eq]
    rfl

theorem foldAssignments_taa (st : CalcState) (itemTotal totalShares : ℚ)
    (as : List Assignment) :
    (as.foldl (processAssignment itemTotal totalShares) st).totalAssignedAmount =
      st.totalAssignedAmount + (as.map (fun a => itemTotal * a.shares / totalShares)).sum := by
  induction as generalizing st with
  | nil => simp
  | cons a rest ih =>
    rw [List.foldl_cons, ih]
    show st.totalAssignedAmount + itemTotal * a.shares / totalShares + _ = _
    rw [List.map_cons, List.sum_cons]
    ring

theorem foldAssignments_inv {st : CalcState} {f : String → ℚ} {ids : List String}
    (h : Inv st f ids) (itemTotal totalShares : ℚ) (as : List Assignment) :
    Inv (as.foldl (processAssignment itemTotal totalShares) st)
      (fun pid => f pid +
        ((as.filter (fun a => a.participant_id = pid)).map
          (fun a => itemTotal * a.shares / totalShares)).sum)
      (encounterFold ids as) := by
  induction as generalizing st f ids with
  | nil =>
    exact h.congr_f (fun pid => by simp)
  | cons a rest ih =>
    have h1 := processAssignment_inv h itemTotal totalShares a
    have h2 := ih h1
    refine h2.congr_f fun pid => ?_
    by_cases hpid : pid = a.participant_id
    · rw [if_pos hpid]
      have : a.participant_id = pid := hpid.symm
      simp only [List.filter_cons, this, decide_True, if_true, List.map_cons, List.sum_cons]
      ring
    · rw [if_neg hpid]
      have : ¬ (a.participant_id = pid) := fun hc => hpid hc.symm
      simp only [List.filter_cons, this, decide_False, List.map_cons]
      simp [this]

theorem processItem_taa (st : CalcState) (item : LineItem) :
    (processItem st item).totalAssignedAmount =
      st.totalAssignedAmount +
        (if 0 < totalSharesOf item then itemAssignedSum item else 0) := by
  unfold processItem
  by_cases hpos : 0 < totalSharesOf item
  · rw [if_pos hpos, if_pos hpos, foldAssignments_taa]
    rfl
  · rw [if_neg hpos, if_neg hpos, add_zero]

theorem processItem_inv {st : CalcState} {f : String → ℚ} {ids : List String}
    (h : Inv st f ids) (item : LineItem) :
    Inv (processItem st item)
      (fun pid => f pid + if 0 < totalSharesOf item then itemShareFor item pid else 0)
      (if 0 < totalSharesOf item then encounterFold ids item.assignments else ids) := by
  unfold processItem
  by_cases hpos : 0 < totalSharesOf item
  · rw [if_pos hpos, if_pos hpos]
    refine (foldAssignments_inv h (itemTotalOf item) (totalSharesOf item)
      item.assignments).congr_f fun pid => ?_
    rw [if_pos hpos]
    rfl
  · rw [if_neg hpos, if_neg hpos]
    exact h.congr_f fun pid => by rw [if_neg hpos, add_zero]

theorem foldItems_taa (st : CalcState) (items : List LineItem) :
    (items.foldl processItem st).totalAssignedAmount =
      st.totalAssignedAmount +
        ((items.filter (fun it => 0 < totalSharesOf it)).map itemAssignedSum).sum := by
  induction items generalizing st with
  | nil => simp
  | cons item rest ih =>
    rw [List.foldl_cons, ih, processItem_taa]
    by_cases hpos : 0 < totalSharesOf item
    · rw [List.filter_cons_of_pos (by simpa using hpos), List.map_cons, List.sum_cons,
        if_pos hpos]
      ring
    · rw [List.filter_cons_of_neg (by simpa using hpos), if_neg hpos, add_zero]

theorem foldItems_inv {st : CalcState} {f : String → ℚ} {ids : List String}
    (h : Inv st f ids) (items : List LineItem) :
    Inv (items.foldl processItem st)
      (fun pid => f pid +
        ((items.filter (fun it => 0 < totalSharesOf it)).map
          (fun it => itemShareFor it pid)).sum)
      (items.foldl
        (fun acc item =>
          if 0 < totalSharesOf item then encounterFold acc item.assignments else acc)
        ids) := by
  induction items generalizing st f ids with
  | nil => exact h.congr_f (fun pid => by simp)
  | cons item rest ih =>
    have h1 := processItem_inv h item
    rw [List.foldl_cons]
    have h2 := ih h1
    rw [List.foldl_cons]
    refine h2.congr_f fun pid => ?_
    by_cases hpos : 0 < totalSharesOf item
    · rw [List.filter_cons_of_pos (by simpa using hpos), List.map_cons, List.sum_cons,
        if_pos hpos]
      ring
    · rw [List.filter_cons_of_neg (by simpa using hpos), if_neg hpos, add_zero]

theorem buildState_inv (receipt : ReceiptData) :
    Inv (buildState receipt) (specItemsTotal receipt) (firstEncounterIds receipt) := by
  have h0 : Inv ⟨0, [], []⟩ (fun _ => 0) [] := by
    constructor
    · rfl
    · exact List.nodup_nil
    · intro e he; simp at he
    · intro pid; rfl
    · intro pid _; rfl
    · rfl
  have h1 := foldItems_inv h0 receipt.line_items
  exact h1.congr_f fun pid => by simp [specItemsTotal]

theorem buildState_taa (receipt : ReceiptData) :
    (buildState receipt).totalAssignedAmount = specTotalAssigned receipt := by
  have := foldItems_taa ⟨0, [], []⟩ receipt.line_items
  unfold buildState specTotalAssigned
  rw [this]
  show (0 : ℚ) + _ = _
  rw [zero_add]

theorem insertDesc_perm (e : PerPersonBreakdown) (l : List PerPersonBreakdown) :
    (insertDesc e l).Perm (e :: l) := by
  induction l with
  | nil => exact List.Perm.refl _
  | cons b bs ih =>
    by_cases h : b.total ≤ e.total
    · rw [insertDesc, if_pos h]
    · rw [insertDesc, if_neg h]
      exact (ih.cons b).trans (List.Perm.swap e b bs)

theorem sortByTotalDesc_perm (l : List PerPersonBreakdown) :
    (sortByTotalDesc l).Perm l := by
  induction l with
  | nil => exact List.Perm.refl _
  | cons e es ih =>
    exact (insertDesc_perm e (sortByTotalDesc es)).trans (ih.cons e)

theorem mem_sortByTotalDesc {x : PerPersonBreakdown} {l : List PerPersonBreakdown} :
    x ∈ sortByTotalDesc l ↔ x ∈ l :=
  (sortByTotalDesc_perm l).mem_iff

theorem pairwise_insertDesc (e : PerPersonBreakdown) (l : List PerPersonBreakdown)
    (h : l.Pairwise (fun a b => b.total ≤ a.total)) :
    (insertDesc e l).Pairwise (fun a b => b.total ≤ a.total) := by
  induction l with
  | nil => exact List.pairwise_singleton _ _
  | cons b bs ih =>
    rcases List.pairwise_cons.1 h with ⟨hb, hbs⟩
    by_cases hbe : b.total ≤ e.total
    · rw [insertDesc, if_pos hbe]
      refine List.pairwise_cons.2 ⟨?_, h⟩
      intro x hx
      rcases List.mem_cons.1 hx with rfl | hx
      · exact hbe
      · exact (hb x hx).trans hbe
    · rw [insertDesc, if_neg hbe]
      refine List.pairwise_cons.2 ⟨?_, ih hbs⟩
      intro x hx
      rcases (insertDesc_perm e bs).mem_iff.1 hx with hx'
      rcases List.mem_cons.1 hx' with rfl | hx''
      · exact le_of_not_le hbe
      · exact hb x hx''

theorem pairwise_sortByTotalDesc (l : List PerPersonBreakdown) :
    (sortByTotalDesc l).Pairwise (fun a b => b.total ≤ a.total) := by
  induction l with
  | nil => exact List.Pairwise.nil
  | cons e es ih => exact pairwise_insertDesc e (sortByTotalDesc es) ih

theorem filter_total_insertDesc (e : PerPersonBreakdown) (l : List PerPersonBreakdown)
    (t : ℚ) :
    (insertDesc e l).filter (fun x => x.total = t) =
      if e.total = t then e :: l.filter (fun x => x.total = t)
      else l.filter (fun x => x.total = t) := by
  induction l with
  | nil =>
    by_cases he : e.total = t
    · rw [insertDesc, if_pos he]
      simp [List.filter, he]
    · rw [insertDesc, if_neg he]
      simp [List.filter, he]
  | cons b bs ih =>
    by_cases hbe : b.total ≤ e.total
    · rw [insertDesc, if_pos hbe]
      by_cases he : e.total = t
      · rw [if_pos he]
        simp only [List.filter_cons]
        rw [if_pos (by simpa using he)]
      · rw [if_neg he]
        simp only [List.filter_cons]
        rw [if_neg (by simpa using he)]
    · rw [insertDesc, if_neg hbe]
      by_cases hb : b.total = t
      · by_cases he : e.total = t
        · exact absurd (hb.trans he.symm) (ne_of_gt (lt_of_not_le hbe))
        · rw [if_neg he]
          simp only [List.filter_cons]
          rw [if_pos (by simpa using hb), if_pos (by simpa using hb), ih, if_neg he]
      · by_cases he : e.total = t
        · rw [if_pos he]
          simp only [List.filter_cons]
          rw [if_neg (by simpa using hb), if_neg (by simpa using hb), ih, if_pos he]
        · rw [if_neg he]
          simp only [List.filter_cons]
          rw [if_neg (by simpa using hb), if_neg (by simpa using hb), ih, if_neg he]

theorem filter_total_sortByTotalDesc (l : List PerPersonBreakdown) (t : ℚ) :
    (sortByTotalDesc l).filter (fun x => x.total = t) =
      l.filter (fun x => x.total = t) := by
  induction l with
  | nil => rfl
  | cons e es ih =>
    rw [sortByTotalDesc, filter_total_insertDesc]
    by_cases he : e.total = t
    · rw [if_pos he, ih]
      simp only [List.filter_cons]
      rw [if_pos (by simpa using he)]
    · rw [if_neg he, ih]
      simp only [List.filter_cons]
      rw [if_neg (by simpa using he)]

theorem applyTaxTip_participantId (taxTotal tipTotal T : ℚ)
    (totals : List (String × ℚ)) (e : PerPersonBreakdown) :
    (applyTaxTip taxTotal tipTotal T totals e).participantId = e.participantId := by
  by_cases h : 0 < T <;> simp [applyTaxTip, h]

theorem applyTaxTip_participantName (taxTotal tipTotal T : ℚ)
    (totals : List (String × ℚ)) (e : PerPersonBreakdown) :
    (applyTaxTip taxTotal tipTotal T totals e).participantName = e.participantName := by
  by_cases h : 0 < T <;> simp [applyTaxTip, h]

theorem applyTaxTip_itemsTotal (taxTotal tipTotal T : ℚ)
    (totals : List (String × ℚ)) (e : PerPersonBreakdown) :
    (applyTaxTip taxTotal tipTotal T totals e).itemsTotal = e.itemsTotal := by
  by_cases h : 0 < T <;> simp [applyTaxTip, h]

theorem applyTaxTip_taxShare_pos (taxTotal tipTotal T : ℚ)
    (totals : List (String × ℚ)) (e : PerPersonBreakdown) (h : 0 < T) :
    (applyTaxTip taxTotal tipTotal T totals e).taxShare =
      taxTotal * (lookupTotal totals e.participantId).getD 0 / T := by
  simp [applyTaxTip, h]

theorem applyTaxTip_tipShare_pos (taxTotal tipTotal T : ℚ)
    (totals : List (String × ℚ)) (e : PerPersonBreakdown) (h : 0 < T) :
    (applyTaxTip taxTotal tipTotal T totals e).tipShare =
      tipTotal * (lookupTotal totals e.participantId).getD 0 / T := by
  simp [applyTaxTip, h]

theorem applyTaxTip_taxShare_nonpos (taxTotal tipTotal T : ℚ)
    (totals : List (String × ℚ)) (e : PerPersonBreakdown) (h : ¬ 0 < T) :
    (applyTaxTip taxTotal tipTotal T totals e).taxShare = e.taxShare := by
  simp [applyTaxTip, h]

theorem applyTaxTip_tipShare_nonpos (taxTotal tipTotal T : ℚ)
    (totals : List (String × ℚ)) (e : PerPersonBreakdown) (h : ¬ 0 < T) :
    (applyTaxTip taxTotal tipTotal T totals e).tipShare = e.tipShare := by
  simp [applyTaxTip, h]

theorem applyTaxTip_total (taxTotal tipTotal T : ℚ)
    (totals : List (String × ℚ)) (e : PerPersonBreakdown) :
    (applyTaxTip taxTotal tipTotal T totals e).total =
      (applyTaxTip taxTotal tipTotal T totals e).itemsTotal +
        (applyTaxTip taxTotal tipTotal T totals e).taxShare +
        (applyTaxTip taxTotal tipTotal T totals e).tipShare := by
  by_cases h : 0 < T <;> simp [applyTaxTip, h]

theorem calc_eq_sort (receipt : ReceiptData) :
    calculatePerPersonBreakdown receipt = sortByTotalDesc (proratedList receipt) := rfl

theorem mem_calc_iff {receipt : ReceiptData} {e' : PerPersonBreakdown} :
    e' ∈ calculatePerPersonBreakdown receipt ↔
      ∃ e ∈ (buildState receipt).breakdown,
        applyTaxTip (taxTotalOf receipt) (tipTotalOf receipt)
          (buildState receipt).totalAssignedAmount
          (buildState receipt).participantItemTotals e = e' := by
  rw [calc_eq_sort, mem_sortByTotalDesc, proratedList, List.mem_map]

theorem mem_encounterFold {pid : String} (acc : List String) (as : List Assignment) :
    pid ∈ encounterFold acc as ↔ pid ∈ acc ∨ ∃ a ∈ as, a.participant_id = pid := by
  induction as generalizing acc with
  | nil => simp [encounterFold]
  | cons a rest ih =>
    show pid ∈ encounterFold (if a.participant_id ∈ acc then acc else acc ++ [a.participant_id]) rest ↔ _
    rw [ih]
    by_cases hmem : a.participant_id ∈ acc
    · rw [if_pos hmem]
      constructor
      · rintro (h | h)
        · exact Or.inl h
        · rcases h with ⟨b, hb, hbeq⟩
          exact Or.inr ⟨b, List.mem_cons_of_mem a hb, hbeq⟩
      · rintro (h | ⟨b, hb, hbeq⟩)
        · exact Or.inl h
        · rcases List.mem_cons.1 hb with rfl | hb'
          · exact Or.inl (hbeq ▸ hmem)
          · exact Or.inr ⟨b, hb', hbeq⟩
    · rw [if_neg hmem]
      constructor
      · rintro (h | h)
        · rcases List.mem_append.1 h with h' | h'
          · exact Or.inl h'
          · rw [List.mem_singleton] at h'
            exact Or.inr ⟨a, List.mem_cons_self a rest, h'.symm⟩
        · rcases h with ⟨b, hb, hbeq⟩
          exact Or.inr ⟨b, List.mem_cons_of_mem a hb, hbeq⟩
      · rintro (h | ⟨b, hb, hbeq⟩)
        · exact Or.inl (List.mem_append_left _ h)
        · rcases List.mem_cons.1 hb with rfl | hb'
          · exact Or.inl (List.mem_append_right _ (by simp [hbeq]))
          · exact Or.inr ⟨b, hb', hbeq⟩

theorem mem_itemsEncounter {pid : String} (acc : List String) (items : List LineItem) :
    pid ∈ items.foldl
        (fun acc item =>
          if 0 < totalSharesOf item then encounterFold acc item.assignments else acc) acc ↔
      pid ∈ acc ∨ ∃ item ∈ items, 0 < totalSharesOf item ∧
        ∃ a ∈ item.assignments, a.participant_id = pid := by
  induction items generalizing acc with
  | nil => simp
  | cons item rest ih =>
    rw [List.foldl_cons, ih]
    by_cases hpos : 0 < totalSharesOf item
    · rw [if_pos hpos, mem_encounterFold]
      constructor
      · rintro ((h | h) | h)
        · exact Or.inl h
        · exact Or.inr ⟨item, List.mem_cons_self _ _, hpos, h⟩
        · rcases h with ⟨it, hit, hit2, hit3⟩
          exact Or.inr ⟨it, List.mem_cons_of_mem _ hit, hit2, hit3⟩
      · rintro (h | ⟨it, hit, hit2, hit3⟩)
        · exact Or.inl (Or.inl h)
        · rcases List.mem_cons.1 hit with rfl | hit'
          · exact Or.inl (Or.inr hit3)
          · exact Or.inr ⟨it, hit', hit2, hit3⟩
    · rw [if_neg hpos]
      constructor
      · rintro (h | h)
        · exact Or.inl h
        · rcases h with ⟨it, hit, hit2, hit3⟩
          exact Or.inr ⟨it, List.mem_cons_of_mem _ hit, hit2, hit3⟩
      · rintro (h | ⟨it, hit, hit2, hit3⟩)
        · exact Or.inl h
        · rcases List.mem_cons.1 hit with rfl | hit'
          · exact absurd hit2 hpos
          · exact Or.inr ⟨it, hit', hit2, hit3⟩

theorem mem_firstEncounterIds {pid : String} (receipt : ReceiptData) :
    pid ∈ firstEncounterIds receipt ↔
      ∃ item ∈ receipt.line_items, 0 < totalSharesOf item ∧
        ∃ a ∈ item.assignments, a.participant_id = pid := by
  unfold firstEncounterIds
  rw [mem_itemsEncounter]
  simp

theorem proratedList_ids (receipt : ReceiptData) :
    (proratedList receipt).map (fun e => e.participantId) = firstEncounterIds receipt := by
  unfold proratedList
  rw [List.map_map]
  have : ∀ e ∈ (buildState receipt).breakdown,
      ((fun e => e.participantId) ∘
        applyTaxTip (taxTotalOf receipt) (tipTotalOf receipt)
          (buildState receipt).totalAssignedAmount
          (buildState receipt).participantItemTotals) e = e.participantId :=
    fun e _ => applyTaxTip_participantId _ _ _ _ e
  rw [List.map_congr_left this]
  exact (buildState_inv receipt).ids_eq

theorem calc_ids_iff {receipt : ReceiptData} {pid : String} :
    pid ∈ (calculatePerPersonBreakdown receipt).map (fun e => e.participantId) ↔
      ∃ item ∈ receipt.line_items, 0 < totalSharesOf item ∧
        ∃ a ∈ item.assignments, a.participant_id = pid := by
  rw [calc_eq_sort]
  rw [((sortByTotalDesc_perm (proratedList receipt)).map (fun e => e.participantId)).mem_iff]
  rw [proratedList_ids]
  exact mem_firstEncounterIds receipt

theorem calc_entry_itemsTotal {receipt : ReceiptData} :
    ∀ e ∈ calculatePerPersonBreakdown receipt,
      e.itemsTotal = specItemsTotal receipt e.participantId := by
  intro e' he'
  rcases mem_calc_iff.1 he' with ⟨e, he, rfl⟩
  rw [applyTaxTip_itemsTotal, applyTaxTip_participantId]
  exact ((buildState_inv receipt).entries e he).2.2.2

theorem calc_entry_shares {receipt : ReceiptData}
    (h : 0 < totalAssignedAmountOf receipt) :
    ∀ e ∈ calculatePerPersonBreakdown receipt,
      e.taxShare = taxTotalOf receipt * e.itemsTotal / totalAssignedAmountOf receipt ∧
      e.tipShare = tipTotalOf receipt * e.itemsTotal / totalAssignedAmountOf receipt := by
  intro e' he'
  rcases mem_calc_iff.1 he' with ⟨e, he, rfl⟩
  have hT : (buildState receipt).totalAssignedAmount = totalAssignedAmountOf receipt := rfl
  have hlook : (lookupTotal (buildState receipt).participantItemTotals e.participantId).getD 0
      = e.itemsTotal := by
    rw [(buildState_inv receipt).totals e.participantId]
    exact (((buildState_inv receipt).entries e he).2.2.2).symm
  constructor
  · rw [applyTaxTip_taxShare_pos _ _ _ _ _ (hT ▸ h), applyTaxTip_itemsTotal, hlook, hT]
  · rw [applyTaxTip_tipShare_pos _ _ _ _ _ (hT ▸ h), applyTaxTip_itemsTotal, hlook, hT]

theorem totalSharesList_eq_sum (as : List Assignment) :
    totalSharesList as = (as.map (fun a => a.shares)).sum := by
  have key : ∀ (acc : ℚ), as.foldl (fun sum a => sum + a.shares) acc =
      acc + (as.map (fun a => a.shares)).sum := by
    induction as with
    | nil => intro acc; simp
    | cons a rest ih =>
      intro acc
      rw [List.foldl_cons, ih, List.map_cons, List.sum_cons]
      ring
  rw [totalSharesList, key 0, zero_add]

theorem itemAssignedSum_eq (item : LineItem) (h : totalSharesOf item ≠ 0) :
    itemAssignedSum item = itemTotalOf item := by
  unfold itemAssignedSum
  have h1 : ∀ a ∈ item.assignments,
      itemTotalOf item * a.shares / totalSharesOf item =
        itemTotalOf item / totalSharesOf item * a.shares := by
    intro a _; ring
  rw [List.map_congr_left h1, List.sum_map_mul_left, ← totalSharesList_eq_sum]
  show itemTotalOf item / totalSharesOf item * totalSharesOf item = itemTotalOf item
  rw [div_mul_cancel₀ _ h]

theorem processItem_of_zero (st : CalcState) (item : LineItem)
    (h : totalSharesOf item = 0) : processItem st item = st := by
  unfold processItem
  rw [if_neg (by rw [h]; exact lt_irrefl 0)]

theorem foldItems_of_all_zero (st : CalcState) (items : List LineItem)
    (h : ∀ it ∈ items, totalSharesOf it = 0) :
    items.foldl processItem st = st := by
  induction items generalizing st with
  | nil => rfl
  | cons item rest ih =>
    rw [List.foldl_cons, processItem_of_zero st item (h item (List.mem_cons_self _ _))]
    exact ih st (fun it hit => h it (List.mem_cons_of_mem _ hit))

theorem calc_sum_itemsTotal (receipt : ReceiptData) :
    ((calculatePerPersonBreakdown receipt).map (fun e => e.itemsTotal)).sum =
      totalAssignedAmountOf receipt := by
  rw [calc_eq_sort]
  rw [List.Perm.sum_eq ((sortByTotalDesc_perm (proratedList receipt)).map
    (fun e => e.itemsTotal))]
  unfold proratedList
  rw [List.map_map]
  have : ∀ e ∈ (buildState receipt).breakdown,
      ((fun e => e.itemsTotal) ∘
        applyTaxTip (taxTotalOf receipt) (tipTotalOf receipt)
          (buildState receipt).totalAssignedAmount
          (buildState receipt).participantItemTotals) e = e.itemsTotal :=
    fun e _ => applyTaxTip_itemsTotal _ _ _ _ e
  rw [List.map_congr_left this]
  exact (buildState_inv receipt).sum_eq

theorem totalShares_scaleShares (k : ℚ) (item : LineItem) :
    totalSharesOf (scaleShares k item) = k * totalSharesOf item := by
  show totalSharesList (item.assignments.map (fun a => { a with shares := k * a.shares }))
    = k * totalSharesList item.assignments
  rw [totalSharesList_eq_sum, totalSharesList_eq_sum, List.map_map]
  have : (item.assignments.map
      ((fun a => a.shares) ∘ (fun a => ({ a with shares := k * a.shares } : Assignment))))
      = item.assignments.map (fun a => k * a.shares) := rfl
  rw [this, List.sum_map_mul_left]

theorem processItem_scaleShares (st : CalcState) (item : LineItem) (k : ℚ)
    (hk : 0 < k) : processItem st (scaleShares k item) = processItem st item := by
  have hk' : k ≠ 0 := ne_of_gt hk
  unfold processItem
  rw [totalShares_scaleShares]
  by_cases hpos : 0 < totalSharesOf item
  · rw [if_pos (mul_pos hk hpos), if_pos hpos]
    show (item.assignments.map (fun a => ({ a with shares := k * a.shares } : Assignment))).foldl
        (processAssignment (itemTotalOf (scaleShares k item)) (k * totalSharesOf item)) st
      = item.assignments.foldl
        (processAssignment (itemTotalOf item) (totalSharesOf item)) st
    rw [List.foldl_map]
    have hstep : (fun (st : CalcState) (a : Assignment) =>
        processAssignment (itemTotalOf (scaleShares k item)) (k * totalSharesOf item) st
          ({ a with shares := k * a.shares } : Assignment))
        = processAssignment (itemTotalOf item) (totalSharesOf item) := by
      funext st a
      unfold processAssignment
      have hIT : itemTotalOf (scaleShares k item) = itemTotalOf item := rfl
      have hdiv : itemTotalOf (scaleShares k item) * (k * a.shares) / (k * totalSharesOf item)
          = itemTotalOf item * a.shares / totalSharesOf item := by
        rw [hIT]
        rw [show itemTotalOf item * (k * a.shares) = k * (itemTotalOf item * a.shares) by ring]
        exact mul_div_mul_left _ _ hk'
      simp only [hdiv]
      rfl
    rw [hstep]
  · have : ¬ 0 < k * totalSharesOf item := by
      intro hc
      exact hpos ((mul_pos_iff_of_pos_left hk).1 hc)
    rw [if_neg this, if_neg hpos]

theorem totalSharesList_filter_ne_zero (as : List Assignment) :
    totalSharesList (as.filter (fun a => a.shares ≠ 0)) = totalSharesList as := by
  rw [totalSharesList_eq_sum, totalSharesList_eq_sum]
  induction as with
  | nil => rfl
  | cons a rest ih =>
    by_cases hz : a.shares = 0
    · rw [List.filter_cons_of_neg (by simp [hz]), List.map_cons, List.sum_cons, ih, hz,
        zero_add]
    · rw [List.filter_cons_of_pos (by simp [hz]), List.map_cons, List.map_cons,
        List.sum_cons, List.sum_cons, ih]

/-- C1: the code computes `participantShare = itemTotal × shares / totalShares`
with exact (unrounded) division, not in integer cents with banker's rounding:
on a 1000-cent item split into three equal shares every participant is
credited 1000/3 cents, so not every `itemsTotal` in the output is a whole
number of cents, refuting the claim at this concrete receipt. -/
theorem C1_counterexample :
    ¬ ∀ e ∈ calculatePerPersonBreakdown rxThirds, isWholeCents e.itemsTotal := by
  intro h
  have hev : (calculatePerPersonBreakdown rxThirds).map (fun e => e.itemsTotal.den)
      = [3, 3, 3] := by
    norm_num [calculatePerPersonBreakdown, buildState, processItem, processAssignment,
      itemTotalOf, totalSharesOf, totalSharesList, lookupTotal, setTotal, hasEntry,
      initEntry, addItemsShare, taxTotalOf, tipTotalOf, applyTaxTip, sortByTotalDesc,
      insertDesc, rxThirds]
    try norm_num [applyTaxTip, sortByTotalDesc, insertDesc, lookupTotal, Rat.den]
    try simp
    try norm_num [applyTaxTip, sortByTotalDesc, insertDesc, lookupTotal, Rat.den]
  have hall : ∀ d ∈ (calculatePerPersonBreakdown rxThirds).map (fun e => e.itemsTotal.den),
      d = 1 := by
    intro d hd
    rcases List.mem_map.1 hd with ⟨e, he, rfl⟩
    exact h e he
  rw [hev] at hall
  exact absurd (hall 3 (by simp)) (by norm_num)

/-- C1 (amended): for every receipt, each output participant's `itemsTotal`
equals the exact rational sum of `itemTotal × shares / totalShares` over that
participant's assignments on line items with positive total shares; the
division is performed exactly, with no rounding, so the result need not be a
whole number of cents. -/
theorem C1_amended_exact_division (receipt : ReceiptData) :
    ∀ e ∈ calculatePerPersonBreakdown receipt,
      e.itemsTotal = specItemsTotal receipt e.participantId :=
  calc_entry_itemsTotal

/-- Witness for C1 (amended): on scenario A (3000-cent item, Alice 2 shares,
Bob 1 share) Alice's entry is present with itemsTotal 2000, and the theorem
applied to it yields the exact-division value. -/
theorem C1_witness :
    (⟨"a", "Alice", 2000, 0, 0, 2000⟩ : PerPersonBreakdown) ∈
      calculatePerPersonBreakdown rxScenarioA ∧
    (2000 : ℚ) = specItemsTotal rxScenarioA "a" := by
  have hev : calculatePerPersonBreakdown rxScenarioA =
      [⟨"a", "Alice", 2000, 0, 0, 2000⟩, ⟨"b", "Bob", 1000, 0, 0, 1000⟩] := by
    norm_num [calculatePerPersonBreakdown, buildState, processItem, processAssignment,
      itemTotalOf, totalSharesOf, totalSharesList, lookupTotal, setTotal, hasEntry,
      initEntry, addItemsShare, taxTotalOf, tipTotalOf, applyTaxTip, sortByTotalDesc,
      insertDesc, rxScenarioA]
    try norm_num [applyTaxTip, sortByTotalDesc, insertDesc, lookupTotal]
    try simp
    try norm_num [applyTaxTip, sortByTotalDesc, insertDesc, lookupTotal]
  have hmem : (⟨"a", "Alice", 2000, 0, 0, 2000⟩ : PerPersonBreakdown) ∈
      calculatePerPersonBreakdown rxScenarioA := by
    rw [hev]; exact List.mem_cons_self _ _
  exact ⟨hmem, C1_amended_exact_division rxScenarioA _ hmem⟩

/-- C2: when the total assigned amount is positive, every output entry has
`taxShare = taxTotal × itemsTotal / totalAssignedAmount` and
`tipShare = tipTotal × itemsTotal / totalAssignedAmount`, where `taxTotal`
sums all tax lines and a `null` tip counts as 0; on scenario B (2000 cents
to Alice, 1000 cents to Bob, 300 cents unscoped tax, no tip) Alice's tax
share is 200 and Bob's is 100. -/
theorem C2_tax_tip_proration (receipt : ReceiptData)
    (h : 0 < totalAssignedAmountOf receipt) :
    (∀ e ∈ calculatePerPersonBreakdown receipt,
      e.taxShare = taxTotalOf receipt * e.itemsTotal / totalAssignedAmountOf receipt ∧
      e.tipShare = tipTotalOf receipt * e.itemsTotal / totalAssignedAmountOf receipt) ∧
    (∀ li tl, tipTotalOf ⟨li, tl, none⟩ = 0) ∧
    (calculatePerPersonBreakdown rxScenarioB).map (fun e => (e.participantId, e.taxShare))
      = [("a", 200), ("b", 100)] := by
  refine ⟨calc_entry_shares h, fun li tl => rfl, ?_⟩
  norm_num [calculatePerPersonBreakdown, buildState, processItem, processAssignment,
    itemTotalOf, totalSharesOf, totalSharesList, lookupTotal, setTotal, hasEntry,
    initEntry, addItemsShare, taxTotalOf, tipTotalOf, applyTaxTip, sortByTotalDesc,
    insertDesc, rxScenarioB]
  try norm_num [applyTaxTip, sortByTotalDesc, insertDesc, lookupTotal]
  try simp
  try norm_num [applyTaxTip, sortByTotalDesc, insertDesc, lookupTotal]

/-- Witness for C2: scenario B has positive total assigned amount (3000), and
the theorem applies to it. -/
theorem C2_witness :
    0 < totalAssignedAmountOf rxScenarioB ∧
    ((∀ e ∈ calculatePerPersonBreakdown rxScenarioB,
      e.taxShare = taxTotalOf rxScenarioB * e.itemsTotal / totalAssignedAmountOf rxScenarioB ∧
      e.tipShare = tipTotalOf rxScenarioB * e.itemsTotal / totalAssignedAmountOf rxScenarioB) ∧
    (∀ li tl, tipTotalOf ⟨li, tl, none⟩ = 0) ∧
    (calculatePerPersonBreakdown rxScenarioB).map (fun e => (e.participantId, e.taxShare))
      = [("a", 200), ("b", 100)]) := by
  have hpos : 0 < totalAssignedAmountOf rxScenarioB := by
    norm_num [totalAssignedAmountOf, buildState, processItem, processAssignment,
      itemTotalOf, totalSharesOf, totalSharesList, lookupTotal, setTotal, hasEntry,
      initEntry, addItemsShare, rxScenarioB]
  exact ⟨hpos, C2_tax_tip_proration rxScenarioB hpos⟩

/-- C3: a line item whose assignments sum to zero total shares contributes
nothing: removing it changes neither the output nor the
`totalAssignedAmount` denominator, and a receipt all of whose line items
have zero total shares produces an empty breakdown. -/
theorem C3_zero_total_shares (pre post : List LineItem) (item : LineItem)
    (tax : List TaxLine) (tip : Option ℚ) (receipt : ReceiptData)
    (hitem : totalSharesOf item = 0)
    (hall : ∀ it ∈ receipt.line_items, totalSharesOf it = 0) :
    calculatePerPersonBreakdown ⟨pre ++ item :: post, tax, tip⟩
      = calculatePerPersonBreakdown ⟨pre ++ post, tax, tip⟩ ∧
    totalAssignedAmountOf ⟨pre ++ item :: post, tax, tip⟩
      = totalAssignedAmountOf ⟨pre ++ post, tax, tip⟩ ∧
    calculatePerPersonBreakdown receipt = [] := by
  have hbs : buildState ⟨pre ++ item :: post, tax, tip⟩
      = buildState ⟨pre ++ post, tax, tip⟩ := by
    show (pre ++ item :: post).foldl processItem ⟨0, [], []⟩
      = (pre ++ post).foldl processItem ⟨0, [], []⟩
    rw [List.foldl_append, List.foldl_append, List.foldl_cons,
      processItem_of_zero _ _ hitem]
  have hempty : buildState receipt = ⟨0, [], []⟩ :=
    foldItems_of_all_zero _ _ hall
  have htax : taxTotalOf ⟨pre ++ item :: post, tax, tip⟩
      = taxTotalOf ⟨pre ++ post, tax, tip⟩ := rfl
  have htip : tipTotalOf ⟨pre ++ item :: post, tax, tip⟩
      = tipTotalOf ⟨pre ++ post, tax, tip⟩ := rfl
  refine ⟨?_, ?_, ?_⟩
  · show sortByTotalDesc ((buildState ⟨pre ++ item :: post, tax, tip⟩).breakdown.map _)
      = sortByTotalDesc ((buildState ⟨pre ++ post, tax, tip⟩).breakdown.map _)
    rw [hbs, htax, htip]
  · show (buildState ⟨pre ++ item :: post, tax, tip⟩).totalAssignedAmount
      = (buildState ⟨pre ++ post, tax, tip⟩).totalAssignedAmount
    rw [hbs]
  · show sortByTotalDesc ((buildState receipt).breakdown.map _) = []
    rw [hempty]
    rfl

/-- Witness for C3: a 1000-cent item whose only assignment carries zero
shares is dropped, and a receipt holding only that item (with tax 100 and
tip 50) yields an empty breakdown. -/
theorem C3_witness :
    totalSharesOf itemAllZeroShares = 0 ∧
    (∀ it ∈ rxAllZeroShares.line_items, totalSharesOf it = 0) ∧
    (calculatePerPersonBreakdown ⟨[] ++ itemAllZeroShares :: [], [⟨100⟩], some 50⟩
        = calculatePerPersonBreakdown ⟨[] ++ [], [⟨100⟩], some 50⟩ ∧
      totalAssignedAmountOf ⟨[] ++ itemAllZeroShares :: [], [⟨100⟩], some 50⟩
        = totalAssignedAmountOf ⟨[] ++ [], [⟨100⟩], some 50⟩ ∧
      calculatePerPersonBreakdown rxAllZeroShares = []) := by
  have h1 : totalSharesOf itemAllZeroShares = 0 := by
    norm_num [totalSharesOf, totalSharesList, itemAllZeroShares]
  have h2 : ∀ it ∈ rxAllZeroShares.line_items, totalSharesOf it = 0 := by
    intro it hit
    have : it = itemAllZeroShares := by
      simpa [rxAllZeroShares] using hit
    rw [this]
    exact h1
  exact ⟨h1, h2, C3_zero_total_shares [] [] itemAllZeroShares [⟨100⟩] (some 50)
    rxAllZeroShares h1 h2⟩

/-- C4 counterexample: on a 1000-cent item where Alice has 1 share and Bob
has 0 shares, Bob does appear in the output, with an all-zero entry — the
claim that a participant whose assignments all carry zero shares is absent
from the output is false at this receipt. -/
theorem C4_counterexample :
    calculatePerPersonBreakdown rxZeroShareMixed =
      [⟨"a", "Alice", 1000, 0, 0, 1000⟩, ⟨"b", "Bob", 0, 0, 0, 0⟩] ∧
    ∃ e ∈ calculatePerPersonBreakdown rxZeroShareMixed, e.participantId = "b" := by
  have hev : calculatePerPersonBreakdown rxZeroShareMixed =
      [⟨"a", "Alice", 1000, 0, 0, 1000⟩, ⟨"b", "Bob", 0, 0, 0, 0⟩] := by
    norm_num [calculatePerPersonBreakdown, buildState, processItem, processAssignment,
      itemTotalOf, totalSharesOf, totalSharesList, lookupTotal, setTotal, hasEntry,
      initEntry, addItemsShare, taxTotalOf, tipTotalOf, applyTaxTip, sortByTotalDesc,
      insertDesc, rxZeroShareMixed]
    try norm_num [applyTaxTip, sortByTotalDesc, insertDesc, lookupTotal]
    try simp
    try norm_num [applyTaxTip, sortByTotalDesc, insertDesc, lookupTotal]
  refine ⟨hev, ⟨⟨"b", "Bob", 0, 0, 0, 0⟩, ?_, rfl⟩⟩
  rw [hev]
  exact List.mem_cons_of_mem _ (List.mem_cons_self _ _)

/-- C4 (amended): a zero-share assignment contributes nothing to the
`totalShares` sum, but it does make its participant appear in the output: a
participant id occurs in the output exactly when it occurs in some
assignment (of any shares value, zero included) of a line item with
positive total shares. -/
theorem C4_amended_zero_share_entry (receipt : ReceiptData) (pid : String) :
    (pid ∈ (calculatePerPersonBreakdown receipt).map (fun e => e.participantId) ↔
      ∃ item ∈ receipt.line_items, 0 < totalSharesOf item ∧
        ∃ a ∈ item.assignments, a.participant_id = pid) ∧
    ∀ as : List Assignment,
      totalSharesList (as.filter (fun a => a.shares ≠ 0)) = totalSharesList as :=
  ⟨calc_ids_iff, totalSharesList_filter_ne_zero⟩

/-- Witness for C4 (amended): at the counterexample receipt, Bob is in the
output because of the zero-share assignment on the positively-shared item. -/
theorem C4_witness :
    ("b" ∈ (calculatePerPersonBreakdown rxZeroShareMixed).map (fun e => e.participantId) ↔
      ∃ item ∈ rxZeroShareMixed.line_items, 0 < totalSharesOf item ∧
        ∃ a ∈ item.assignments, a.participant_id = "b") ∧
    ∀ as : List Assignment,
      totalSharesList (as.filter (fun a => a.shares ≠ 0)) = totalSharesList as :=
  C4_amended_zero_share_entry rxZeroShareMixed "b"

/-- C5: when every line item has positive total assigned shares, the sum of
all output `itemsTotal` values equals the sum of `unit_price_cents × quantity`
over all line items, within 1 cent per line item (in the exact rational model
the two sums are equal, so the bound holds). -/
theorem C5_conservation (receipt : ReceiptData)
    (h : ∀ item ∈ receipt.line_items, 0 < totalSharesOf item) :
    |((calculatePerPersonBreakdown receipt).map (fun e => e.itemsTotal)).sum -
        (receipt.line_items.map (fun item => itemTotalOf item)).sum| ≤
      (receipt.line_items.length : ℚ) := by
  have hfil : receipt.line_items.filter (fun it => 0 < totalSharesOf it)
      = receipt.line_items :=
    List.filter_eq_self.2 (fun it hit => by simpa using h it hit)
  have hsum : specTotalAssigned receipt
      = (receipt.line_items.map (fun item => itemTotalOf item)).sum := by
    unfold specTotalAssigned
    rw [hfil]
    apply congrArg List.sum
    apply List.map_congr_left
    intro it hit
    exact itemAssignedSum_eq it (ne_of_gt (h it hit))
  rw [calc_sum_itemsTotal, show totalAssignedAmountOf receipt = specTotalAssigned receipt
    from buildState_taa receipt, hsum, sub_self, abs_zero]
  positivity

/-- Witness for C5: a receipt with two fully assigned items (1000 and 1500
cents); every item has positive shares and the sums agree within its 2-cent
bound. -/
theorem C5_witness :
    (∀ item ∈ rxTwoItems.line_items, 0 < totalSharesOf item) ∧
    |((calculatePerPersonBreakdown rxTwoItems).map (fun e => e.itemsTotal)).sum -
        (rxTwoItems.line_items.map (fun item => itemTotalOf item)).sum| ≤
      (rxTwoItems.line_items.length : ℚ) := by
  have h : ∀ item ∈ rxTwoItems.line_items, 0 < totalSharesOf item := by
    intro it hit
    rcases (by simpa [rxTwoItems] using hit :
        it = (⟨1000, 1, [⟨"a", "Alice", 1⟩]⟩ : LineItem) ∨
        it = (⟨500, 3, [⟨"a", "Alice", 1⟩, ⟨"b", "Bob", 2⟩]⟩ : LineItem)) with rfl | rfl <;>
      norm_num [totalSharesOf, totalSharesList]
  exact ⟨h, C5_conservation rxTwoItems h⟩

/-- C6: multiplying every assignment's shares on one line item by the same
positive integer leaves the whole output of `calculatePerPersonBreakdown`
(and hence every participant's itemsTotal, taxShare, tipShare and total)
unchanged. -/
theorem C6_scale_invariance (pre post : List LineItem) (item : LineItem)
    (tax : List TaxLine) (tip : Option ℚ) (k : ℤ) (hk : 0 < k) :
    calculatePerPersonBreakdown ⟨pre ++ scaleShares (k : ℚ) item :: post, tax, tip⟩
      = calculatePerPersonBreakdown ⟨pre ++ item :: post, tax, tip⟩ := by
  have hkq : (0 : ℚ) < (k : ℚ) := by exact_mod_cast hk
  have hbs : buildState ⟨pre ++ scaleShares (k : ℚ) item :: post, tax, tip⟩
      = buildState ⟨pre ++ item :: post, tax, tip⟩ := by
    show (pre ++ scaleShares (k : ℚ) item :: post).foldl processItem ⟨0, [], []⟩
      = (pre ++ item :: post).foldl processItem ⟨0, [], []⟩
    rw [List.foldl_append, List.foldl_append, List.foldl_cons, List.foldl_cons,
      processItem_scaleShares _ _ _ hkq]
  have htax : taxTotalOf ⟨pre ++ scaleShares (k : ℚ) item :: post, tax, tip⟩
      = taxTotalOf ⟨pre ++ item :: post, tax, tip⟩ := rfl
  have htip : tipTotalOf ⟨pre ++ scaleShares (k : ℚ) item :: post, tax, tip⟩
      = tipTotalOf ⟨pre ++ item :: post, tax, tip⟩ := rfl
  show sortByTotalDesc
      ((buildState ⟨pre ++ scaleShares (k : ℚ) item :: post, tax, tip⟩).breakdown.map _)
    = sortByTotalDesc ((buildState ⟨pre ++ item :: post, tax, tip⟩).breakdown.map _)
  rw [hbs, htax, htip]

/-- Witness for C6: doubling the 2:1 shares of a 3000-cent item leaves the
breakdown unchanged. -/
theorem C6_witness :
    (0 : ℤ) < 2 ∧
    calculatePerPersonBreakdown ⟨[] ++ scaleShares ((2 : ℤ) : ℚ) itemTwoToOne :: [], [], none⟩
      = calculatePerPersonBreakdown ⟨[] ++ itemTwoToOne :: [], [], none⟩ :=
  ⟨by norm_num, C6_scale_invariance [] [] itemTwoToOne [] none 2 (by norm_num)⟩

/-- C7 counterexample: on a receipt containing an assignment with negative
shares (Alice 2, Bob −1 on a 1000-cent item) the computation is not rejected:
`calculatePerPersonBreakdown` returns a breakdown that incorporates the
negative shares, crediting Bob −1000 cents. -/
theorem C7_counterexample :
    calculatePerPersonBreakdown rxNegativeShares =
      [⟨"a", "Alice", 2000, 0, 0, 2000⟩, ⟨"b", "Bob", -1000, 0, 0, -1000⟩] ∧
    ∃ e ∈ calculatePerPersonBreakdown rxNegativeShares, e.itemsTotal < 0 := by
  have hev : calculatePerPersonBreakdown rxNegativeShares =
      [⟨"a", "Alice", 2000, 0, 0, 2000⟩, ⟨"b", "Bob", -1000, 0, 0, -1000⟩] := by
    norm_num [calculatePerPersonBreakdown, buildState, processItem, processAssignment,
      itemTotalOf, totalSharesOf, totalSharesList, lookupTotal, setTotal, hasEntry,
      initEntry, addItemsShare, taxTotalOf, tipTotalOf, applyTaxTip, sortByTotalDesc,
      insertDesc, rxNegativeShares]
    try norm_num [applyTaxTip, sortByTotalDesc, insertDesc, lookupTotal]
    try simp
    try norm_num [applyTaxTip, sortByTotalDesc, insertDesc, lookupTotal]
  refine ⟨hev, ⟨⟨"b", "Bob", -1000, 0, 0, -1000⟩, ?_, by norm_num⟩⟩
  rw [hev]
  exact List.mem_cons_of_mem _ (List.mem_cons_self _ _)

/-- C7 (amended): negative shares are not rejected; they flow through the
same formula as any other value.  For any price `P` and shares `t` (Alice)
and `s < 0` (Bob) with `t + s > 0`, the breakdown contains an entry for Bob
whose itemsTotal is exactly `P × s / (t + s)`. -/
theorem C7_amended_negative_flow (P s t : ℚ) (hneg : s < 0) (hpos : 0 < t + s) :
    ∃ e ∈ calculatePerPersonBreakdown
        ⟨[⟨P, 1, [⟨"a", "Alice", t⟩, ⟨"b", "Bob", s⟩]⟩], [], none⟩,
      e.participantId = "b" ∧ e.itemsTotal = P * s / (t + s) := by
  have hS : totalSharesOf ⟨P, 1, [⟨"a", "Alice", t⟩, ⟨"b", "Bob", s⟩]⟩ = t + s := by
    show (0 + t) + s = t + s
    ring
  have hSpos : 0 < totalSharesOf ⟨P, 1, [⟨"a", "Alice", t⟩, ⟨"b", "Bob", s⟩]⟩ := by
    rw [hS]; exact hpos
  have hid : "b" ∈ (calculatePerPersonBreakdown
      ⟨[⟨P, 1, [⟨"a", "Alice", t⟩, ⟨"b", "Bob", s⟩]⟩], [], none⟩).map
        (fun e => e.participantId) := by
    apply calc_ids_iff.2
    exact ⟨_, List.mem_cons_self _ _, hSpos,
      ⟨"b", "Bob", s⟩, List.mem_cons_of_mem _ (List.mem_cons_self _ _), rfl⟩
  rcases List.mem_map.1 hid with ⟨e, he, hpid⟩
  refine ⟨e, he, hpid, ?_⟩
  rw [calc_entry_itemsTotal e he, hpid]
  show specItemsTotal ⟨[⟨P, 1, [⟨"a", "Alice", t⟩, ⟨"b", "Bob", s⟩]⟩], [], none⟩ "b"
    = P * s / (t + s)
  simp [specItemsTotal, itemShareFor, itemTotalOf, List.filter_cons, hS, hpos]

/-- Witness for C7 (amended): at price 1000 with shares 2 and −1 the theorem
produces Bob's entry with itemsTotal 1000 × (−1) / (2 + (−1)) = −1000. -/
theorem C7_witness :
    (-1 : ℚ) < 0 ∧ (0 : ℚ) < 2 + (-1) ∧
    ∃ e ∈ calculatePerPersonBreakdown
        ⟨[⟨1000, 1, [⟨"a", "Alice", 2⟩, ⟨"b", "Bob", -1⟩]⟩], [], none⟩,
      e.participantId = "b" ∧ e.itemsTotal = 1000 * (-1) / (2 + (-1)) :=
  ⟨by norm_num, by norm_num, C7_amended_negative_flow 1000 (-1) 2 (by norm_num) (by norm_num)⟩

/-- C8: the output is sorted by `total` descending, and the order is
reproducible: for every total value, the entries carrying it appear as a
subsequence of the participant ids in first-encounter (insertion) order. -/
theorem C8_sorted_and_stable (receipt : ReceiptData) :
    (calculatePerPersonBreakdown receipt).Pairwise (fun a b => b.total ≤ a.total) ∧
    ∀ t : ℚ,
      List.Sublist
        (((calculatePerPersonBreakdown receipt).filter (fun e => e.total = t)).map
          (fun e => e.participantId))
        (firstEncounterIds receipt) := by
  constructor
  · rw [calc_eq_sort]
    exact pairwise_sortByTotalDesc _
  · intro t
    rw [calc_eq_sort, filter_total_sortByTotalDesc, ← proratedList_ids]
    exact List.Sublist.map _ ((proratedList receipt).filter_sublist)

/-- C9: `calculatePerPersonBreakdown` is deterministic and has no hidden
state: its output depends only on the values of the three input fields, so
two invocations on field-for-field identical receipts return identical
lists. -/
theorem C9_deterministic (r1 r2 : ReceiptData)
    (h1 : r1.line_items = r2.line_items) (h2 : r1.tax_lines = r2.tax_lines)
    (h3 : r1.tip_cents = r2.tip_cents) :
    calculatePerPersonBreakdown r1 = calculatePerPersonBreakdown r2 := by
  cases r1
  cases r2
  cases h1
  cases h2
  cases h3
  rfl

/-- Witness for C9: two separately defined but identical receipts produce the
same output. -/
theorem C9_witness :
    (rxDet1.line_items = rxDet2.line_items ∧ rxDet1.tax_lines = rxDet2.tax_lines ∧
      rxDet1.tip_cents = rxDet2.tip_cents) ∧
    calculatePerPersonBreakdown rxDet1 = calculatePerPersonBreakdown rxDet2 :=
  ⟨⟨rfl, rfl, rfl⟩, C9_deterministic rxDet1 rxDet2 rfl rfl rfl⟩

/-- C10: when `totalAssignedAmount` is zero the tax/tip division is skipped:
every output entry keeps taxShare 0 and tipShare 0 and has total equal to
its itemsTotal, even when tax lines or a tip are present. -/
theorem C10_zero_denominator (receipt : ReceiptData)
    (h : totalAssignedAmountOf receipt = 0) :
    ∀ e ∈ calculatePerPersonBreakdown receipt,
      e.taxShare = 0 ∧ e.tipShare = 0 ∧ e.total = e.itemsTotal := by
  intro e' he'
  rcases mem_calc_iff.1 he' with ⟨e, he, rfl⟩
  have hnp : ¬ 0 < (buildState receipt).totalAssignedAmount := by
    rw [show (buildState receipt).totalAssignedAmount = totalAssignedAmountOf receipt
      from rfl, h]
    exact lt_irrefl 0
  obtain ⟨htax0, htip0, _, _⟩ := (buildState_inv receipt).entries e he
  refine ⟨?_, ?_, ?_⟩
  · rw [applyTaxTip_taxShare_nonpos _ _ _ _ _ hnp, htax0]
  · rw [applyTaxTip_tipShare_nonpos _ _ _ _ _ hnp, htip0]
  · rw [applyTaxTip_total, applyTaxTip_taxShare_nonpos _ _ _ _ _ hnp, htax0,
      applyTaxTip_tipShare_nonpos _ _ _ _ _ hnp, htip0, add_zero, add_zero]

/-- Witness for C10: the zero-price receipt has totalAssignedAmount 0 with a
non-empty breakdown (1 entry), nonzero tax (300) and tip (100), and the
theorem applies to it. -/
theorem C10_witness :
    totalAssignedAmountOf rxZeroPrice = 0 ∧
    (calculatePerPersonBreakdown rxZeroPrice).length = 1 ∧
    (∀ e ∈ calculatePerPersonBreakdown rxZeroPrice,
      e.taxShare = 0 ∧ e.tipShare = 0 ∧ e.total = e.itemsTotal) := by
  have h0 : totalAssignedAmountOf rxZeroPrice = 0 := by
    norm_num [totalAssignedAmountOf, buildState, processItem, processAssignment,
      itemTotalOf, totalSharesOf, totalSharesList, lookupTotal, setTotal, hasEntry,
      initEntry, addItemsShare, rxZeroPrice]
  refine ⟨h0, ?_, C10_zero_denominator rxZeroPrice h0⟩
  norm_num [calculatePerPersonBreakdown, buildState, processItem, processAssignment,
    itemTotalOf, totalSharesOf, totalSharesList, lookupTotal, setTotal, hasEntry,
    initEntry, addItemsShare, taxTotalOf, tipTotalOf, applyTaxTip, sortByTotalDesc,
    insertDesc, rxZeroPrice]
  try norm_num [applyTaxTip, sortByTotalDesc, insertDesc, lookupTotal]
  try simp
  try norm_num [applyTaxTip, sortByTotalDesc, insertDesc, lookupTotal]

end TripSplitter
